import Mathlib

/-!
# The eosio watcher plugin: filter table, action correlator, delivery client

A shallow embedding of `src/src/watcher_plugin.cpp` (class `watcher_plugin_impl`) and of
`src/include/eosio/watcher_plugin/http_async_client.hpp` (class `http_async_client`).

Conventions of the embedding.

* A `name` (account or action name) is its 64-bit `value`, a natural number; the name built
  from the literal `0` is the wildcard ("any action").
* A `transaction_id_type` (a sha256 digest) is a natural number.
* `fc::time_point` and `fc::microseconds` are signed 64-bit microsecond counts, held in `Int`;
  arithmetic that the code does on them is wrapped to 64 bits by `wrap64`.
* `std::set<filter_entry>` is the list of its elements; `find` looks for an element that is
  equivalent to the key under `operator<`.
* `std::unordered_multimap<transaction_id_type, sequenced_action>` is the list of its
  entries. `insert` appends, `equal_range` keeps the entries of one key, `find` points at
  the first entry of the key and `erase(iterator)` removes exactly the entry pointed at.
* An exception is an explicit result: `none` from the decoder, `raised = true` from the
  block handler.
-/

set_option autoImplicit false

namespace eosio

/-! ## Chain types used by the plugin -/

/-- The 64-bit value of an `eosio::name`. -/
abbrev name := Nat

/-- An account name is a `name`. -/
abbrev account_name := name

/-- An action name is a `name`. -/
abbrev action_name := name

/-- A transaction id (sha256 digest), as a number. -/
abbrev transaction_id_type := Nat

/-- An `fc::variant`: the decoded, structured action data, kept as its JSON text. -/
abbrev variant := String

/-- Raw action payload bytes. -/
abbrev bytes := List Nat

/-- The `permission_level` of the chain library: actor and permission. -/
structure permission_level where
  actor : account_name
  permission : name
deriving DecidableEq, Repr

/-- The `action` of the chain library. -/
structure action where
  account : account_name
  name : action_name
  authorization : List permission_level
  data : bytes
deriving DecidableEq, Repr

/-- The `action_trace` of the chain library, as the plugin reads it: the receiver, the action
and the ordered inline traces (`act.inline_traces`). -/
inductive action_trace where
  | mk (receiver : account_name) (act : action) (inline_traces : List action_trace)

/-- Field `receiver` of an action trace. -/
def action_trace.receiver : action_trace → account_name
  | .mk r _ _ => r

/-- Field `act` of an action trace. -/
def action_trace.act : action_trace → action
  | .mk _ a _ => a

/-- Field `inline_traces` of an action trace. -/
def action_trace.inline_traces : action_trace → List action_trace
  | .mk _ _ l => l

/-- The `transaction_trace` of the chain library, as the plugin reads it. -/
structure transaction_trace where
  id : transaction_id_type
  action_traces : List action_trace

namespace watcher_plugin_impl

/-! ## Filter table (`filter_entry`, `filter_on`, `filter`) -/

/-- The `filter_entry` struct: receiver and action (action `0` is the wildcard). -/
structure filter_entry where
  receiver : name
  action : name
deriving DecidableEq, Repr

/-- The `filter_entry::key()` member: the tuple (receiver, action). -/
def filter_entry.key (e : filter_entry) : name × name := (e.receiver, e.action)

/-- The `operator<` of `std::tuple<name, name>`: lexicographic on the values. -/
def tuple_lt (a b : name × name) : Bool :=
  decide (a.1 < b.1) || (!decide (b.1 < a.1) && decide (a.2 < b.2))

/-- The `operator<` of `filter_entry`: comparison of the keys. -/
def filter_entry.lt (a b : filter_entry) : Bool := tuple_lt a.key b.key

/-- The `std::set::find` of `filter_on`: an element equivalent to `k` under the ordering
(neither is less than the other), `none` standing for `end()`. -/
def set_find (s : List filter_entry) (k : filter_entry) : Option filter_entry :=
  s.find? (fun e => !(filter_entry.lt e k) && !(filter_entry.lt k e))

/-- The `filter` member: the exact pair is looked up first, then the wildcard entry of
the receiver. -/
def filter (filter_on : List filter_entry) (act : action_trace) : Bool :=
  if (set_find filter_on ⟨act.receiver, act.act.name⟩).isSome then true
  else if (set_find filter_on ⟨act.receiver, 0⟩).isSome then true
  else false

/-! ## Data carried by the correlator -/

/-- The `action_seq_t` typedef is `uint32_t`: incrementing wraps at `2^32`. -/
def action_seq_succ (seq : Nat) : Nat := (seq + 1) % 2 ^ 32

/-- The `sequenced_action` struct: an `action` with its sequence number and receiver. -/
structure sequenced_action extends action where
  seq_num : Nat
  receiver : account_name
deriving DecidableEq, Repr

/-- The constructor `sequenced_action(act, seq, receiver)`. -/
def sequenced_action.ctor (act : action) (seq : Nat) (receiver : account_name) :
    sequenced_action :=
  { toaction := act, seq_num := seq, receiver := receiver }

/-- The `action_notif` struct. -/
structure action_notif where
  tx_id : transaction_id_type
  account : account_name
  name : action_name
  seq_num : Nat
  receiver : account_name
  block_time : Int
  block_num : Nat
  authorization : List permission_level
  action_data : variant
deriving DecidableEq, Repr

/-- The constructor `action_notif(act, tx_id, action_data, block_time, block_num)`. -/
def action_notif.ctor (act : sequenced_action) (tx_id : transaction_id_type)
    (action_data : variant) (block_time : Int) (block_num : Nat) : action_notif :=
  { tx_id := tx_id, account := act.account, name := act.name, seq_num := act.seq_num,
    receiver := act.receiver, block_time := block_time, block_num := block_num,
    authorization := act.authorization, action_data := action_data }

/-- The `message` struct. -/
structure message where
  actions : List action_notif
deriving DecidableEq, Repr

/-! ## The pending index (`action_queue_t`, an `unordered_multimap`) -/

/-- The `action_queue_t` typedef: the entries of the multimap, in iteration order. -/
abbrev action_queue_t := List (transaction_id_type × sequenced_action)

/-- Multimap `count(k)`: the number of entries under key `k`. -/
def action_queue_t.count (q : action_queue_t) (k : transaction_id_type) : Nat :=
  (q.filter (fun e => decide (e.1 = k))).length

/-- Multimap `insert(pair)`: one more entry; entries of one key keep insertion order. -/
def action_queue_t.insert (q : action_queue_t)
    (p : transaction_id_type × sequenced_action) : action_queue_t :=
  q ++ [p]

/-- Multimap `equal_range(k)`: the entries under key `k`. -/
def action_queue_t.equal_range (q : action_queue_t) (k : transaction_id_type) :
    action_queue_t :=
  q.filter (fun e => decide (e.1 = k))

/-- Multimap `find(k)`: the position of an entry under key `k` (the first one), `none`
standing for `end()`. -/
def action_queue_t.find : action_queue_t → transaction_id_type → Option Nat
  | [], _ => none
  | e :: q, k => if e.1 = k then some 0 else (action_queue_t.find q k).map (· + 1)

/-- Multimap `erase(iterator)`: removes the one entry the iterator points at. -/
def action_queue_t.erase (q : action_queue_t) : Option Nat → action_queue_t
  | none => q
  | some i => q.eraseIdx i

/-! ## Time (`fc::time_point`, `fc::microseconds`) -/

end watcher_plugin_impl

/-- Two's complement wrap of a signed 64-bit count. -/
def wrap64 (x : Int) : Int := (x + 2 ^ 63) % 2 ^ 64 - 2 ^ 63

/-- The `fc::seconds(s)` helper: `s * 1000000` microseconds, in 64 bits. -/
def fc.seconds (s : Int) : Int := wrap64 (s * 1000000)

/-! ## Blocks -/

/-- A `packed_transaction`; `id` is what its `id()` getter returns. -/
structure packed_transaction where
  id : transaction_id_type
  packed_trx : bytes
deriving DecidableEq, Repr

/-- The `trx` member of a transaction receipt: a static variant holding either a
transaction id (deferred transactions) or a packed transaction. -/
inductive transaction_variant where
  | tx_id (id : transaction_id_type)
  | packed (p : packed_transaction)
deriving DecidableEq, Repr

/-- A `transaction_receipt` of a block. -/
structure transaction_receipt where
  trx : transaction_variant
deriving DecidableEq, Repr

/-- The `signed_block` reached through `block_state->block`: `timestamp` (as a time point,
in microseconds), `block_num()` and `transactions`. -/
structure signed_block where
  timestamp : Int
  block_num : Nat
  transactions : List transaction_receipt
deriving DecidableEq, Repr

/-- The `block_state` handed to the accepted-block signal. -/
structure block_state where
  block : signed_block
deriving DecidableEq, Repr

/-! ## ABI decoding, supplied by the chain -/

/-- The `abi_serializer` of one account: `get_action_type` gives the type of an action as
a name (`0`, the default `action_name()`, when the action is unknown); `binary_to_variant`
decodes, `none` when it throws. -/
structure abi_serializer where
  get_action_type : action_name → name
  binary_to_variant : action_name → bytes → Option variant

/-- The chain controller: `get_abi_serializer` gives the serializer of an account, `none`
when the optional is not valid. -/
structure controller where
  get_abi_serializer : account_name → Option abi_serializer

/-! ## The plugin state -/

/-- A task posted to the executor of the http client by `httpc.post(dest, payload, deadline)`. -/
structure delivery_task where
  dest : String
  payload : watcher_plugin_impl.message
  deadline : Int
deriving DecidableEq, Repr

/-- The data members of class `watcher_plugin_impl`; `httpc` holds the tasks posted to the
delivery client so far, oldest first. -/
structure watcher_plugin_impl where
  filter_on : List watcher_plugin_impl.filter_entry
  httpc : List delivery_task
  receiver_url : String
  age_limit : Int
  action_queue : watcher_plugin_impl.action_queue_t
deriving DecidableEq, Repr

namespace watcher_plugin_impl

/-- The constant `http_timeout`: ten seconds. -/
def http_timeout : Int := fc.seconds 10

/-- The `deserialize_action_data` member; `none` when the `FC_ASSERT` fails or the decoder
throws. -/
def deserialize_action_data (chain : controller) (act : action) : Option variant :=
  match chain.get_abi_serializer act.account with
  | none => none
  | some serializer =>
    if serializer.get_action_type act.name ≠ 0 then
      serializer.binary_to_variant act.name act.data
    else none

/-- The `on_action_trace` member: stages the action when it passes the filter and returns
the incremented sequence number. The loop over `act.inline_traces` is commented out in the
source, so inline traces are not visited. -/
def on_action_trace (my : watcher_plugin_impl) (act : action_trace)
    (tx_id : transaction_id_type) (act_sequence : Nat) : watcher_plugin_impl × Nat :=
  let my1 :=
    if filter my.filter_on act then
      { my with action_queue :=
          my.action_queue.insert (tx_id, sequenced_action.ctor act.act act_sequence act.receiver) }
    else my
  (my1, action_seq_succ act_sequence)

/-- The loop of `on_applied_tx` over `trace->action_traces`, threading `seq`. -/
def on_applied_tx_loop (id : transaction_id_type) :
    List action_trace → watcher_plugin_impl → Nat → watcher_plugin_impl × Nat
  | [], my, seq => (my, seq)
  | tr :: rest, my, seq =>
    let r := on_action_trace my tr id seq
    on_applied_tx_loop id rest r.1 r.2

/-- The `on_applied_tx` member. -/
def on_applied_tx (my : watcher_plugin_impl) (trace : transaction_trace) :
    watcher_plugin_impl :=
  let id := trace.id
  if my.action_queue.count id = 0 then
    (on_applied_tx_loop id trace.action_traces my 0).1
  else my

/-- The loop of `build_message` over the range: each entry is decoded and its notification
pushed onto the message; `none` when a decode raises. -/
def build_message_loop (chain : controller) (block : block_state)
    (tx_id : transaction_id_type) : action_queue_t → message → Option message
  | [], msg => some msg
  | it :: rest, msg =>
    match deserialize_action_data chain it.2.toaction with
    | none => none
    | some act_data =>
      build_message_loop chain block tx_id rest
        { actions := msg.actions ++
            [action_notif.ctor it.2 tx_id act_data block.block.timestamp block.block.block_num] }

/-- The `build_message` member: walks `equal_range(tx_id)`. -/
def build_message (chain : controller) (my : watcher_plugin_impl) (msg : message)
    (block : block_state) (tx_id : transaction_id_type) : Option message :=
  build_message_loop chain block tx_id (my.action_queue.equal_range tx_id) msg

/-- The `send_message` member: posts the message to the delivery client with the deadline
`now + http_timeout`. -/
def send_message (my : watcher_plugin_impl) (now : Int) (msg : message) :
    watcher_plugin_impl :=
  { my with httpc := my.httpc ++ [⟨my.receiver_url, msg, wrap64 (now + http_timeout)⟩] }

/-- The id of a listed transaction: the id itself, or the `id()` of the packed transaction. -/
def trx_id (trx : transaction_receipt) : transaction_id_type :=
  match trx.trx with
  | .tx_id id => id
  | .packed p => p.id

/-- The loop of `on_accepted_block` over `block->transactions`; the message is `none` when
`build_message` raised, which ends the loop. -/
def on_accepted_block_loop (chain : controller) (block_state : block_state) :
    List transaction_receipt → watcher_plugin_impl → message →
      watcher_plugin_impl × Option message
  | [], my, msg => (my, some msg)
  | trx :: rest, my, msg =>
    let tx_id := trx_id trx
    if my.action_queue.count tx_id ≠ 0 then
      match build_message chain my msg block_state tx_id with
      | none => (my, none)
      | some msg1 =>
        let itr := my.action_queue.find tx_id
        on_accepted_block_loop chain block_state rest
          { my with action_queue := my.action_queue.erase itr } msg1
    else on_accepted_block_loop chain block_state rest my msg

/-- What a call of `on_accepted_block` leaves: the plugin state and whether an exception
left the call. -/
structure accepted_block_result where
  my : watcher_plugin_impl
  raised : Bool
deriving DecidableEq, Repr

/-- The age test of `on_accepted_block`:
`age_limit == -1 || now - btime < fc::seconds(age_limit)`. -/
def age_check (age_limit : Int) (now btime : Int) : Bool :=
  decide (age_limit = -1) || decide (wrap64 (now - btime) < fc.seconds age_limit)

/-- The `on_accepted_block` member. `now` is the clock read of the age test and `now_send`
the later one of `send_message`. -/
def on_accepted_block (chain : controller) (my : watcher_plugin_impl) (now now_send : Int)
    (block_state : block_state) : accepted_block_result :=
  let btime := block_state.block.timestamp
  if age_check my.age_limit now btime then
    match on_accepted_block_loop chain block_state block_state.block.transactions my ⟨[]⟩ with
    | (my1, none) => ⟨my1, true⟩
    | (my1, some msg) =>
      if msg.actions.length > 0 then ⟨send_message my1 now_send msg, false⟩
      else ⟨my1, false⟩
  else ⟨my, false⟩

end watcher_plugin_impl

/-! ## Delivery client (`http_async_client`) -/

/-- How one call of the underlying `sync_client->post_sync` ends: it returns, or it throws
`fc::eof_exception`, `fc::assert_exception`, or anything else. -/
inductive send_result where
  | ok
  | eof_exception
  | assert_exception
  | other_exception
deriving DecidableEq, Repr

/-- The arguments of one call of the underlying `sync_client->post_sync`. -/
structure send_call (T : Type) where
  dest : String
  payload : T
  deadline : Int
deriving DecidableEq, Repr

/-- The state of class `http_async_client` that `post_sync` touches: the member `retry`
and, for `sync_client`, the calls made on it so far, oldest first. -/
structure http_async_client (T : Type) where
  retry : Bool
  calls : List (send_call T)
deriving DecidableEq, Repr

namespace http_async_client

/-- The freshly constructed client: `retry = true`, nothing sent. -/
def init (T : Type) : http_async_client T := ⟨true, []⟩

/-- The private member `post_sync`. `sync_client n` is how the call number `n` (from 0) of
the underlying send ends. The `finally` guard sets `retry = true` on every way out; the
handler of `fc::eof_exception` is empty, the handler of `fc::assert_exception` calls
`post_sync` again when `retry` is set, after clearing it, and `FC_CAPTURE_AND_LOG` swallows
everything else. -/
def post_sync {T : Type} (sync_client : Nat → send_result) (self : http_async_client T)
    (dest : String) (payload : T) (deadline : Int) : http_async_client T :=
  let self1 : http_async_client T :=
    { self with calls := self.calls ++ [⟨dest, payload, deadline⟩] }
  match sync_client self.calls.length with
  | .assert_exception =>
    if _h : self.retry = true then
      let self2 := post_sync sync_client { self1 with retry := false } dest payload deadline
      { self2 with retry := true }
    else { self1 with retry := true }
  | _ => { self1 with retry := true }
termination_by (if self.retry = true then 1 else 0)
decreasing_by simp [_h]

/-- The worker (`ioc.run()`): runs the posted tasks one after the other, in posting order. -/
def run {T : Type} (sync_client : Nat → send_result) :
    List (send_call T) → http_async_client T → http_async_client T
  | [], self => self
  | task :: rest, self =>
    run sync_client rest (post_sync sync_client self task.dest task.payload task.deadline)

end http_async_client

/-! ## Vocabulary of the statements about the block handler -/

namespace watcher_plugin_impl

/-- The notification `n` is the one of the staged entry `e` in `block`: it carries the
transaction id of the entry, the account, name, authorization, sequence number and receiver
of the staged action, the timestamp and number of the block, and the decoded data. -/
def is_notif_of (chain : controller) (block : block_state) (n : action_notif)
    (e : transaction_id_type × sequenced_action) : Prop :=
  n.tx_id = e.1 ∧ n.account = e.2.account ∧ n.name = e.2.name ∧
  n.authorization = e.2.authorization ∧ n.seq_num = e.2.seq_num ∧
  n.receiver = e.2.receiver ∧ n.block_time = block.block.timestamp ∧
  n.block_num = block.block.block_num ∧
  deserialize_action_data chain e.2.toaction = some n.action_data

/-- The staged entries of the transactions listed in a block, in block order. -/
def staged_of_block (q : action_queue_t) (block : block_state) : action_queue_t :=
  block.block.transactions.flatMap (fun trx => q.equal_range (trx_id trx))

/-- The ids of the transactions listed in a block, in block order. -/
def listed_ids (block : block_state) : List transaction_id_type :=
  block.block.transactions.map trx_id

/-- One delivery of the accepted-block signal: the two clock reads and the block. -/
structure accepted_block_call where
  now : Int
  now_send : Int
  block_state : block_state

/-- A sequence of deliveries of the accepted-block signal, each call starting from the
state the previous one left (an exception leaving one call does not stop the next). -/
def on_accepted_blocks (chain : controller) :
    List accepted_block_call → watcher_plugin_impl → watcher_plugin_impl
  | [], my => my
  | c :: rest, my =>
    on_accepted_blocks chain rest (on_accepted_block chain my c.now c.now_send c.block_state).my

end watcher_plugin_impl

/-! ## Configuration (`watcher_plugin::plugin_initialize`) -/

/-- The exceptions that leave `plugin_initialize`: `fc::invalid_arg_exception` from the
`EOS_ASSERT`s, and whatever the constructor of `name` throws on a string it refuses. -/
inductive fc_exception where
  | invalid_arg_exception
  | name_type_exception
deriving DecidableEq, Repr

deriving instance DecidableEq for Except

/-- The options read by `plugin_initialize`: `watch-receiver-url` (`none` when
`options.count` is not 1), the composed values of `watch` (`none` when `options.count` is
0) and `watch-age-limit`. -/
structure variables_map where
  watch_receiver_url : Option String
  watch : Option (List String)
  watch_age_limit : Option Int
deriving DecidableEq, Repr

/-- The freshly constructed `watcher_plugin_impl`: empty filter set, `age_limit` at
`default_age_limit = 60`, nothing staged, nothing posted. -/
def watcher_plugin_impl.ctor : watcher_plugin_impl := ⟨[], [], "", 60, []⟩

namespace watcher_plugin

open watcher_plugin_impl

/-- The call `boost::split(v, s, boost::is_any_of(":"))`: the fields between the colons,
empty fields kept; a string without a colon is one field. -/
def split_colon : List Char → List (List Char)
  | [] => [[]]
  | c :: cs =>
    if c = ':' then [] :: split_colon cs
    else
      match split_colon cs with
      | [] => [[c]]
      | f :: fs => (c :: f) :: fs

/-- The `std::set::insert` of `filter_on`, on the sorted list of the elements: the entry
goes to its place in the order unless an equivalent one is there. -/
def set_insert : List filter_entry → filter_entry → List filter_entry
  | [], e => [e]
  | x :: xs, e =>
    if filter_entry.lt e x then e :: x :: xs
    else if filter_entry.lt x e then x :: set_insert xs e
    else x :: xs

/-- The loop of `plugin_initialize` over the values of `watch`. `string_to_name` is the
constructor of `name` from a string, `none` when it throws. Each value is split at the
colons and must give exactly two fields, `v[0]` the receiver and `v[1]` the action, and
the receiver must have a non-zero value. -/
def watch_loop (string_to_name : String → Option name) :
    List String → List filter_entry → Except fc_exception (List filter_entry)
  | [], filter_on => Except.ok filter_on
  | s :: rest, filter_on =>
    match (split_colon s.data).map String.mk with
    | [v0, v1] =>
      match string_to_name v0, string_to_name v1 with
      | some receiver, some action =>
        if receiver ≠ 0 then
          watch_loop string_to_name rest (set_insert filter_on ⟨receiver, action⟩)
        else Except.error fc_exception.invalid_arg_exception
      | _, _ => Except.error fc_exception.name_type_exception
    | _ => Except.error fc_exception.invalid_arg_exception

/-- The `plugin_initialize` member, up to the hook-up of the signals: the receiver url is
required, the `watch` values fill the filter set, `watch-age-limit` sets the age limit.
An exception is rethrown to the caller. -/
def plugin_initialize (string_to_name : String → Option name) (my : watcher_plugin_impl)
    (options : variables_map) : Except fc_exception watcher_plugin_impl :=
  match options.watch_receiver_url with
  | none => Except.error fc_exception.invalid_arg_exception
  | some url_str =>
    let my1 := { my with receiver_url := url_str }
    match (match options.watch with
           | some fo => watch_loop string_to_name fo my1.filter_on
           | none => Except.ok my1.filter_on) with
    | Except.error e => Except.error e
    | Except.ok filter_on =>
      let my2 := { my1 with filter_on := filter_on }
      match options.watch_age_limit with
      | some limit => Except.ok { my2 with age_limit := limit }
      | none => Except.ok my2

end watcher_plugin

/-! ## Reachable states of the plugin -/

namespace watcher_plugin_impl

/-- The entries one pass of `on_applied_tx` stages for the action traces `trs` under `id`,
the first trace numbered `seq`: what the loop inserts, in insertion order. -/
def staged_entries (filter_on : List filter_entry) (id : transaction_id_type) :
    List action_trace → Nat → action_queue_t
  | [], _ => []
  | tr :: rest, seq =>
    (if filter filter_on tr then [(id, sequenced_action.ctor tr.act seq tr.receiver)] else []) ++
      staged_entries filter_on id rest (action_seq_succ seq)

/-- The states the plugin reaches from `my0` by calls of `on_applied_tx`, on traces with
fewer than `2^32` action traces, and of `on_accepted_block`, on any block, at any clock
reads and with any ABI state of the chain, whether or not the call raises. -/
inductive reachable (my0 : watcher_plugin_impl) : watcher_plugin_impl → Prop where
  | start : reachable my0 my0
  | applied_tx (my : watcher_plugin_impl) (trace : transaction_trace) :
      reachable my0 my → trace.action_traces.length < 2 ^ 32 →
      reachable my0 (on_applied_tx my trace)
  | accepted_block (chain : controller) (my : watcher_plugin_impl) (now now_send : Int)
      (block : block_state) :
      reachable my0 my → reachable my0 (on_accepted_block chain my now now_send block).my

end watcher_plugin_impl

/-! ## Concrete inputs used by the evaluations below -/

namespace sample

/-- Top-level action `A` of account 1. -/
def act_A : action := ⟨1, 10, [⟨1, 100⟩], [1]⟩

/-- Inline action `A1`, triggered by `A`. -/
def act_A1 : action := ⟨1, 12, [⟨1, 100⟩], [2]⟩

/-- Inline action `A2`, triggered by `A`. -/
def act_A2 : action := ⟨1, 13, [⟨1, 100⟩], [3]⟩

/-- Top-level action `B` of account 1. -/
def act_B : action := ⟨1, 11, [⟨1, 100⟩], [4]⟩

/-- The trace of transaction 77: top-level `A` with inline `A1`, `A2`, then top-level `B`;
every receiver is account 1. -/
def trace_77 : transaction_trace :=
  ⟨77, [action_trace.mk 1 act_A [action_trace.mk 1 act_A1 [], action_trace.mk 1 act_A2 []],
        action_trace.mk 1 act_B []]⟩

/-- A plugin watching every action of receiver 1, age limit 60 s, nothing staged. -/
def my_watching : watcher_plugin_impl := ⟨[⟨1, 0⟩], [], "http://receiver", 60, []⟩

/-- The same plugin with `A` and `B` staged under transaction 77. -/
def my_staged : watcher_plugin_impl :=
  { my_watching with
    action_queue := [(77, watcher_plugin_impl.sequenced_action.ctor act_A 0 1),
                     (77, watcher_plugin_impl.sequenced_action.ctor act_B 1 1)] }

/-- A chain on which every action of every account decodes. -/
def chain_all : controller :=
  ⟨fun _ => some ⟨fun _ => 1, fun _ _ => some "decoded"⟩⟩

/-- A chain whose ABI of every account knows action 10 only. -/
def chain_only_10 : controller :=
  ⟨fun _ => some ⟨fun n => if n = 10 then 1 else 0, fun _ _ => some "decoded"⟩⟩

/-- Block 5, stamped at second 1, listing the deferred transaction 77. -/
def block_5 : block_state := ⟨⟨1000000, 5, [⟨transaction_variant.tx_id 77⟩]⟩⟩

/-- Block 6, stamped at second 1, listing the packed transaction 88. -/
def block_6 : block_state :=
  ⟨⟨1000000, 6, [⟨transaction_variant.packed ⟨88, [0]⟩⟩]⟩⟩

/-- A clock read one second after the stamp of `block_5`. -/
def now_fresh : Int := 2000000

/-- A clock read 99 seconds after the stamp of `block_5`. -/
def now_late : Int := 100000000

/-- The plugin `my_staged` configured with `watch-age-limit = -2`. -/
def my_staged_limit_minus_2 : watcher_plugin_impl := { my_staged with age_limit := -2 }

/-- The symbol of one character of a name: `a`..`z` are 6..31, `1`..`5` are 1..5,
everything else is 0. -/
def char_to_symbol (c : Char) : Nat :=
  if Char.toNat 'a' ≤ c.toNat ∧ c.toNat ≤ Char.toNat 'z' then c.toNat - Char.toNat 'a' + 6
  else if Char.toNat '1' ≤ c.toNat ∧ c.toNat ≤ Char.toNat '5' then
    c.toNat - Char.toNat '1' + 1
  else 0

/-- The base-32 value of the characters from position `i` on, five bits each from the top
of the 64-bit word. -/
def encode_name : List Char → Nat → Nat
  | [], _ => 0
  | c :: cs, i => char_to_symbol c * 2 ^ (64 - 5 * (i + 1)) + encode_name cs (i + 1)

/-- A sample constructor of `name` from a string: names of at most 12 characters from
`.12345abcdefghijklmnopqrstuvwxyz` get their base-32 value, every other string is refused. -/
def string_to_name (s : String) : Option name :=
  if s.data.length ≤ 12 ∧ s.data.all (fun c => decide (c = '.' ∨ char_to_symbol c ≠ 0)) then
    some (encode_name s.data 0)
  else none

/-- Options with a receiver url and the single watch value `alice`. -/
def options_alice : variables_map := ⟨some "http://receiver", some ["alice"], some 60⟩

/-- Options with a receiver url and the single watch value `alice:`. -/
def options_alice_colon : variables_map := ⟨some "http://receiver", some ["alice:"], some 60⟩

end sample

/-! ## Filter table: lemmas -/

namespace watcher_plugin_impl

/-- Two entries are equivalent under the ordering exactly when they are equal. -/
theorem equiv_iff_eq (e k : filter_entry) :
    (!(filter_entry.lt e k) && !(filter_entry.lt k e)) = true ↔ e = k := by
  obtain ⟨er, ea⟩ := e
  obtain ⟨kr, ka⟩ := k
  simp only [filter_entry.lt, filter_entry.key, tuple_lt, Bool.and_eq_true, Bool.not_eq_true',
    Bool.or_eq_false_iff, decide_eq_false_iff_not, Bool.and_eq_false_imp, Bool.not_eq_true',
    filter_entry.mk.injEq, not_lt]
  constructor
  · rintro ⟨⟨h1, h2⟩, h3, h4⟩
    have hr : er = kr := le_antisymm h3 h1
    subst hr
    exact ⟨rfl, le_antisymm (h4 (by simp)) (h2 (by simp))⟩
  · rintro ⟨rfl, rfl⟩
    simp

/-- The lookup `find` succeeds exactly on the members of the set. -/
theorem set_find_isSome (s : List filter_entry) (k : filter_entry) :
    (set_find s k).isSome = true ↔ k ∈ s := by
  unfold set_find
  rw [List.find?_isSome]
  constructor
  · rintro ⟨e, he, h⟩
    rw [equiv_iff_eq] at h
    exact h ▸ he
  · intro h
    exact ⟨k, h, (equiv_iff_eq k k).2 rfl⟩

/-- C1: `filter` returns true exactly when the set holds the entry (receiver, action name)
or the wildcard entry (receiver, 0); hence it returns false when every entry is for another
receiver or for another, non-wildcard action of this receiver. -/
theorem filter_iff (filter_on : List filter_entry) (act : action_trace) :
    (filter filter_on act = true ↔
      (⟨act.receiver, act.act.name⟩ : filter_entry) ∈ filter_on ∨
      (⟨act.receiver, 0⟩ : filter_entry) ∈ filter_on) ∧
    ((∀ e ∈ filter_on, e.receiver ≠ act.receiver ∨
        (e.action ≠ act.act.name ∧ e.action ≠ 0)) → filter filter_on act = false) := by
  have key : filter filter_on act = true ↔
      (⟨act.receiver, act.act.name⟩ : filter_entry) ∈ filter_on ∨
      (⟨act.receiver, 0⟩ : filter_entry) ∈ filter_on := by
    unfold filter
    rw [← set_find_isSome, ← set_find_isSome]
    by_cases h1 : (set_find filter_on ⟨act.receiver, act.act.name⟩).isSome = true
    · simp [h1]
    · by_cases h2 : (set_find filter_on ⟨act.receiver, 0⟩).isSome = true
      · simp [h2]
      · simp [h1, h2]
  refine ⟨key, fun h => ?_⟩
  rw [← Bool.not_eq_true, key]
  rintro (hm | hm)
  · rcases h _ hm with h | ⟨h, _⟩ <;> exact h rfl
  · rcases h _ hm with h | ⟨_, h⟩ <;> exact h rfl

/-- C1, at a concrete set: only an entry of another receiver and another action of the
receiver are present, and the filter rejects the trace. -/
theorem filter_iff_witness :
    (∀ e ∈ [(⟨5, 7⟩ : filter_entry), ⟨6, 0⟩],
        e.receiver ≠ (action_trace.mk 5 ⟨5, 8, [], []⟩ []).receiver ∨
        (e.action ≠ (action_trace.mk 5 ⟨5, 8, [], []⟩ []).act.name ∧ e.action ≠ 0)) ∧
    filter [⟨5, 7⟩, ⟨6, 0⟩] (action_trace.mk 5 ⟨5, 8, [], []⟩ []) = false :=
  ⟨by decide, (filter_iff [⟨5, 7⟩, ⟨6, 0⟩] (action_trace.mk 5 ⟨5, 8, [], []⟩ [])).2 (by decide)⟩

end watcher_plugin_impl

/-! ## Pending index: lemmas -/

namespace watcher_plugin_impl

/-- Erasing at `find` on a non-empty index: the head goes when it has the key, otherwise
the erase happens in the tail. -/
theorem erase_find_cons (e : transaction_id_type × sequenced_action) (q : action_queue_t)
    (k : transaction_id_type) :
    action_queue_t.erase (e :: q) (action_queue_t.find (e :: q) k) =
      if e.1 = k then q else e :: action_queue_t.erase q (action_queue_t.find q k) := by
  by_cases h : e.1 = k
  · simp [action_queue_t.find, action_queue_t.erase, h]
  · simp only [action_queue_t.find, h, if_false]
    cases hf : action_queue_t.find q k with
    | none => simp [action_queue_t.erase]
    | some i => simp [action_queue_t.erase]

/-- Erasing at `find k` leaves the range of every other key as it was. -/
theorem equal_range_erase_find_ne (q : action_queue_t) (k k2 : transaction_id_type)
    (h : k2 ≠ k) :
    action_queue_t.equal_range (action_queue_t.erase q (action_queue_t.find q k)) k2 =
      action_queue_t.equal_range q k2 := by
  induction q with
  | nil => simp [action_queue_t.find, action_queue_t.erase]
  | cons e q ih =>
    rw [erase_find_cons]
    by_cases he : e.1 = k
    · have : ¬ e.1 = k2 := fun h2 => h (h2.symm.trans he)
      rw [if_pos he]
      simp [action_queue_t.equal_range, List.filter_cons, this]
    · simp only [he, if_false]
      simp only [action_queue_t.equal_range] at ih ⊢
      simp only [List.filter_cons, ih]

/-- Erasing at `find k` removes exactly one entry of key `k` when there is one. -/
theorem count_erase_find (q : action_queue_t) (k : transaction_id_type) :
    action_queue_t.count (action_queue_t.erase q (action_queue_t.find q k)) k =
      action_queue_t.count q k - 1 := by
  induction q with
  | nil => simp [action_queue_t.find, action_queue_t.erase, action_queue_t.count]
  | cons e q ih =>
    rw [erase_find_cons]
    by_cases he : e.1 = k
    · simp [he, action_queue_t.count]
    · simp only [he, if_false]
      simp only [action_queue_t.count] at ih ⊢
      simp only [List.filter_cons, he, decide_False]
      exact ih

/-- Every entry left after erasing at `find k` was in the index. -/
theorem mem_of_mem_erase_find (q : action_queue_t) (k : transaction_id_type)
    (e : transaction_id_type × sequenced_action)
    (h : e ∈ action_queue_t.erase q (action_queue_t.find q k)) : e ∈ q := by
  cases hf : action_queue_t.find q k with
  | none => simpa [hf, action_queue_t.erase] using h
  | some i =>
    rw [hf] at h
    exact (List.eraseIdx_sublist q i).subset h

/-- A key with count zero has an empty range. -/
theorem equal_range_of_count_eq_zero (q : action_queue_t) (k : transaction_id_type)
    (h : action_queue_t.count q k = 0) : action_queue_t.equal_range q k = [] := by
  unfold action_queue_t.count at h
  exact List.length_eq_zero.mp h

/-- The members of a range are the entries of the index under that key. -/
theorem mem_equal_range (q : action_queue_t) (k : transaction_id_type)
    (e : transaction_id_type × sequenced_action) :
    e ∈ action_queue_t.equal_range q k ↔ e ∈ q ∧ e.1 = k := by
  simp [action_queue_t.equal_range]

end watcher_plugin_impl

/-! ## Staging (`on_applied_tx`) -/

namespace watcher_plugin_impl

/-- The staging loop only appends entries under the id of the trace and touches nothing
else of the plugin. -/
theorem on_applied_tx_loop_appends (id : transaction_id_type) (trs : List action_trace)
    (my : watcher_plugin_impl) (seq : Nat) :
    ∃ st : action_queue_t,
      (on_applied_tx_loop id trs my seq).1 =
        { my with action_queue := my.action_queue ++ st } ∧
      ∀ e ∈ st, e.1 = id := by
  induction trs generalizing my seq with
  | nil => exact ⟨[], by simp [on_applied_tx_loop], by simp⟩
  | cons tr rest ih =>
    simp only [on_applied_tx_loop]
    obtain ⟨st, hst, hid⟩ := ih (on_action_trace my tr id seq).1 (on_action_trace my tr id seq).2
    by_cases hf : filter my.filter_on tr = true
    · refine ⟨(id, sequenced_action.ctor tr.act seq tr.receiver) :: st, ?_, ?_⟩
      · rw [hst]
        simp [on_action_trace, hf, action_queue_t.insert]
      · intro e he
        rcases List.mem_cons.1 he with rfl | he
        · rfl
        · exact hid e he
    · refine ⟨st, ?_, hid⟩
      rw [hst]
      simp [on_action_trace, hf]

/-- C4, evaluated: with every action of the trace `[A (inline A1, A2), B]` passing the
filter, `on_applied_tx` stages `A` with sequence number 0 and `B` with sequence number 1;
the inline actions `A1` and `A2` are neither numbered nor staged. -/
theorem on_applied_tx_skips_inline :
    (on_applied_tx sample.my_watching sample.trace_77).action_queue =
      [(77, sequenced_action.ctor sample.act_A 0 1),
       (77, sequenced_action.ctor sample.act_B 1 1)] := by
  decide

/-- C5: `on_applied_tx` is idempotent, and it changes nothing when the index already holds
an entry under the id of the trace. -/
theorem on_applied_tx_idempotent (my : watcher_plugin_impl) (trace : transaction_trace) :
    on_applied_tx (on_applied_tx my trace) trace = on_applied_tx my trace ∧
    (my.action_queue.count trace.id ≠ 0 → on_applied_tx my trace = my) := by
  have hskip : ∀ m : watcher_plugin_impl,
      m.action_queue.count trace.id ≠ 0 → on_applied_tx m trace = m := by
    intro m hm
    simp [on_applied_tx, hm]
  refine ⟨?_, hskip my⟩
  by_cases hc : my.action_queue.count trace.id = 0
  · obtain ⟨st, hst, hid⟩ := on_applied_tx_loop_appends trace.id trace.action_traces my 0
    have hone : on_applied_tx my trace = { my with action_queue := my.action_queue ++ st } := by
      simp [on_applied_tx, hc, hst]
    cases st with
    | nil =>
      have hmy : on_applied_tx my trace = my := by simpa using hone
      rw [hmy, hmy]
    | cons e st =>
      apply hskip
      rw [hone]
      have he : e.1 = trace.id := hid e (List.mem_cons_self _ _)
      simp [action_queue_t.count, List.filter_cons, he]
  · rw [hskip my hc, hskip my hc]

/-- C5 on the sample trace: once `A` and `B` are staged, applying the trace again changes
nothing. -/
theorem on_applied_tx_idempotent_witness :
    sample.my_staged.action_queue.count sample.trace_77.id ≠ 0 ∧
    on_applied_tx sample.my_staged sample.trace_77 = sample.my_staged :=
  ⟨by decide, (on_applied_tx_idempotent sample.my_staged sample.trace_77).2 (by decide)⟩

end watcher_plugin_impl

/-! ## Correlation (`build_message`, `on_accepted_block`) -/

namespace watcher_plugin_impl

/-- Inside the signed 64-bit range `wrap64` changes nothing. -/
theorem wrap64_of_range (x : Int) (h1 : -2 ^ 63 ≤ x) (h2 : x < 2 ^ 63) : wrap64 x = x := by
  unfold wrap64
  omega

/-- A block strictly older than a non-negative limit fails the age test. -/
theorem age_check_of_older (age_limit now btime : Int) (hlim : 0 ≤ age_limit)
    (hold : age_limit * 1000000 < now - btime) (hrep : now - btime < 2 ^ 63) :
    age_check age_limit now btime = false := by
  have h1 : wrap64 (now - btime) = now - btime := wrap64_of_range _ (by omega) hrep
  have h2 : fc.seconds age_limit = age_limit * 1000000 := by
    unfold fc.seconds
    exact wrap64_of_range _ (by omega) (by omega)
  have h3 : age_limit ≠ -1 := by omega
  simp only [age_check, h1, h2, Bool.or_eq_false_iff, decide_eq_false_iff_not]
  exact ⟨h3, by omega⟩

/-- The handler leaves an old block alone: same state, nothing raised. -/
theorem on_accepted_block_of_older (chain : controller) (my : watcher_plugin_impl)
    (now now_send : Int) (block : block_state) (hlim : 0 ≤ my.age_limit)
    (hold : my.age_limit * 1000000 < now - block.block.timestamp)
    (hrep : now - block.block.timestamp < 2 ^ 63) :
    on_accepted_block chain my now now_send block = ⟨my, false⟩ := by
  simp [on_accepted_block, age_check_of_older _ _ _ hlim hold hrep]

/-- When every entry of the range decodes, `build_message` appends one notification per
entry, in range order. -/
theorem build_message_loop_ok (chain : controller) (block : block_state)
    (tx_id : transaction_id_type) (range : action_queue_t) (msg : message)
    (hkey : ∀ e ∈ range, e.1 = tx_id)
    (hdec : ∀ e ∈ range, (deserialize_action_data chain e.2.toaction).isSome = true) :
    ∃ l : List action_notif,
      build_message_loop chain block tx_id range msg = some ⟨msg.actions ++ l⟩ ∧
      List.Forall₂ (is_notif_of chain block) l range := by
  induction range generalizing msg with
  | nil => exact ⟨[], by simp [build_message_loop], List.Forall₂.nil⟩
  | cons it rest ih =>
    have hit := hdec it (List.mem_cons_self _ _)
    obtain ⟨d, hd⟩ := Option.isSome_iff_exists.1 hit
    obtain ⟨l, hl, hrel⟩ := ih
      ⟨msg.actions ++ [action_notif.ctor it.2 tx_id d block.block.timestamp block.block.block_num]⟩
      (fun e he => hkey e (List.mem_cons_of_mem _ he))
      (fun e he => hdec e (List.mem_cons_of_mem _ he))
    refine ⟨action_notif.ctor it.2 tx_id d block.block.timestamp block.block.block_num :: l,
      ?_, List.Forall₂.cons ?_ hrel⟩
    · simp only [build_message_loop, hd, hl]
      simp
    · have hk := hkey it (List.mem_cons_self _ _)
      simp [is_notif_of, action_notif.ctor, hk, hd]

/-- One entry of the range that fails to decode makes `build_message` raise. -/
theorem build_message_loop_raises (chain : controller) (block : block_state)
    (tx_id : transaction_id_type) (range : action_queue_t) (msg : message)
    (e : transaction_id_type × sequenced_action) (he : e ∈ range)
    (hfail : deserialize_action_data chain e.2.toaction = none) :
    build_message_loop chain block tx_id range msg = none := by
  induction range generalizing msg with
  | nil => cases he
  | cons it rest ih =>
    simp only [build_message_loop]
    cases hd : deserialize_action_data chain it.2.toaction with
    | none => rfl
    | some d =>
      rcases List.mem_cons.1 he with rfl | he2
      · rw [hfail] at hd
        cases hd
      · exact ih _ he2

/-- The loop over the transactions touches the pending index only. -/
theorem on_accepted_block_loop_fields (chain : controller) (block : block_state)
    (txs : List transaction_receipt) (my : watcher_plugin_impl) (msg : message) :
    (on_accepted_block_loop chain block txs my msg).1 =
      { my with action_queue := (on_accepted_block_loop chain block txs my msg).1.action_queue } := by
  induction txs generalizing my msg with
  | nil => rfl
  | cons trx rest ih =>
    simp only [on_accepted_block_loop]
    split
    · split
      · rfl
      · rw [ih]
    · exact ih my msg

/-- The loop over the transactions leaves the range of every id it does not list. -/
theorem on_accepted_block_loop_frame (chain : controller) (block : block_state)
    (txs : List transaction_receipt) (my : watcher_plugin_impl) (msg : message)
    (k : transaction_id_type) (hk : k ∉ txs.map trx_id) :
    (on_accepted_block_loop chain block txs my msg).1.action_queue.equal_range k =
      my.action_queue.equal_range k := by
  induction txs generalizing my msg with
  | nil => rfl
  | cons trx rest ih =>
    have hne : k ≠ trx_id trx := fun h => hk (by simp [h])
    have hrest : k ∉ rest.map trx_id := fun h => hk (by simp [List.mem_map] at h ⊢; exact Or.inr h)
    simp only [on_accepted_block_loop]
    split
    · split
      · rfl
      · rw [ih _ _ hrest]
        exact equal_range_erase_find_ne _ _ _ hne
    · exact ih my msg hrest

/-- A loop over transactions none of which has staged entries changes nothing and builds
nothing. -/
theorem on_accepted_block_loop_none_staged (chain : controller) (block : block_state)
    (txs : List transaction_receipt) (my : watcher_plugin_impl) (msg : message)
    (h : ∀ trx ∈ txs, my.action_queue.count (trx_id trx) = 0) :
    on_accepted_block_loop chain block txs my msg = (my, some msg) := by
  induction txs generalizing msg with
  | nil => rfl
  | cons trx rest ih =>
    simp only [on_accepted_block_loop, h trx (List.mem_cons_self _ _), ne_eq, not_true_eq_false,
      if_false]
    exact ih msg (fun t ht => h t (List.mem_cons_of_mem _ ht))

/-- With pairwise distinct listed ids and decodable staged entries, the loop completes and
appends one notification per staged entry of the listed transactions, in block order. -/
theorem on_accepted_block_loop_ok (chain : controller) (block : block_state)
    (txs : List transaction_receipt) (my : watcher_plugin_impl) (msg : message)
    (hnd : (txs.map trx_id).Nodup)
    (hdec : ∀ e ∈ my.action_queue, e.1 ∈ txs.map trx_id →
      (deserialize_action_data chain e.2.toaction).isSome = true) :
    ∃ l : List action_notif,
      (on_accepted_block_loop chain block txs my msg).2 = some ⟨msg.actions ++ l⟩ ∧
      List.Forall₂ (is_notif_of chain block) l
        (txs.flatMap (fun trx => my.action_queue.equal_range (trx_id trx))) := by
  induction txs generalizing my msg with
  | nil => exact ⟨[], by simp [on_accepted_block_loop], by simp⟩
  | cons trx rest ih =>
    rw [List.map_cons, List.nodup_cons] at hnd
    obtain ⟨hhead, hnd2⟩ := hnd
    simp only [on_accepted_block_loop, List.flatMap_cons]
    by_cases hc : my.action_queue.count (trx_id trx) = 0
    · obtain ⟨l, hl, hrel⟩ := ih my msg hnd2
        (fun e he hm => hdec e he (by simp only [List.map_cons]; exact List.mem_cons_of_mem _ hm))
      refine ⟨l, ?_, ?_⟩
      · simp only [hc, ne_eq, not_true_eq_false, if_false]
        exact hl
      · rw [equal_range_of_count_eq_zero _ _ hc]
        simpa using hrel
    · obtain ⟨l1, hl1, hrel1⟩ := build_message_loop_ok chain block (trx_id trx)
        (my.action_queue.equal_range (trx_id trx)) msg
        (fun e he => ((mem_equal_range _ _ _).1 he).2)
        (fun e he => hdec e ((mem_equal_range _ _ _).1 he).1
          (by simp only [List.map_cons, ((mem_equal_range _ _ _).1 he).2]
              exact List.mem_cons_self _ _))
      obtain ⟨l2, hl2, hrel2⟩ := ih
        { my with action_queue :=
            my.action_queue.erase (my.action_queue.find (trx_id trx)) }
        ⟨msg.actions ++ l1⟩ hnd2
        (fun e he hm => hdec e (mem_of_mem_erase_find _ _ _ he)
          (by simp only [List.map_cons]; exact List.mem_cons_of_mem _ hm))
      have hsame : rest.flatMap (fun t =>
            action_queue_t.equal_range
              (action_queue_t.erase my.action_queue (action_queue_t.find my.action_queue (trx_id trx)))
              (trx_id t)) =
          rest.flatMap (fun t => action_queue_t.equal_range my.action_queue (trx_id t)) := by
        apply List.flatMap_congr
        intro t ht
        apply equal_range_erase_find_ne
        intro heq
        exact hhead (heq ▸ List.mem_map_of_mem trx_id ht)
      refine ⟨l1 ++ l2, ?_, ?_⟩
      · simp only [hc, ne_eq, not_false_eq_true, if_true, build_message, hl1, hl2]
        simp
      · rw [← hsame]
        exact List.rel_append hrel1 hrel2

/-- A staged entry of a listed transaction that fails to decode makes the loop raise, and
the entries of that transaction are all still staged. -/
theorem on_accepted_block_loop_raises (chain : controller) (block : block_state)
    (txs : List transaction_receipt) (my : watcher_plugin_impl) (msg : message)
    (e : transaction_id_type × sequenced_action) (he : e ∈ my.action_queue)
    (hlisted : e.1 ∈ txs.map trx_id)
    (hfail : deserialize_action_data chain e.2.toaction = none) :
    (on_accepted_block_loop chain block txs my msg).2 = none ∧
    (on_accepted_block_loop chain block txs my msg).1.action_queue.equal_range e.1 =
      my.action_queue.equal_range e.1 := by
  induction txs generalizing my msg with
  | nil => simp at hlisted
  | cons trx rest ih =>
    have hrange : e ∈ my.action_queue.equal_range e.1 := (mem_equal_range _ _ _).2 ⟨he, rfl⟩
    simp only [on_accepted_block_loop]
    by_cases hc : my.action_queue.count (trx_id trx) = 0
    · have hne : e.1 ≠ trx_id trx := by
        intro heq
        rw [heq, equal_range_of_count_eq_zero _ _ hc] at hrange
        cases hrange
      have hl : e.1 ∈ rest.map trx_id := by
        rcases List.mem_cons.1 (by simpa only [List.map_cons] using hlisted) with h | h
        · exact absurd h hne
        · exact h
      simp only [hc, ne_eq, not_true_eq_false, if_false]
      exact ih my msg he hl
    · simp only [hc, ne_eq, not_false_eq_true, if_true]
      cases hb : build_message chain my msg block (trx_id trx) with
      | none => exact ⟨rfl, rfl⟩
      | some msg1 =>
        have hne : e.1 ≠ trx_id trx := by
          intro heq
          have := build_message_loop_raises chain block (trx_id trx)
            (my.action_queue.equal_range (trx_id trx)) msg e (heq ▸ hrange) hfail
          rw [build_message, this] at hb
          cases hb
        have hl : e.1 ∈ rest.map trx_id := by
          rcases List.mem_cons.1 (by simpa only [List.map_cons] using hlisted) with h | h
          · exact absurd h hne
          · exact h
        have hkeep := equal_range_erase_find_ne my.action_queue (trx_id trx) e.1 hne
        have he2 : e ∈ action_queue_t.erase my.action_queue
            (action_queue_t.find my.action_queue (trx_id trx)) := by
          have : e ∈ action_queue_t.equal_range (action_queue_t.erase my.action_queue
              (action_queue_t.find my.action_queue (trx_id trx))) e.1 := by
            rw [hkeep]
            exact hrange
          exact ((mem_equal_range _ _ _).1 this).1
        obtain ⟨h1, h2⟩ := ih
          { my with action_queue :=
              my.action_queue.erase (my.action_queue.find (trx_id trx)) } msg1 he2 hl
        exact ⟨h1, h2.trans hkeep⟩

/-- C2: for a block that passes the age test, lists pairwise distinct transaction ids and
whose staged actions all decode, the handler raises nothing and hands the delivery client
one message holding exactly one notification per staged entry of the listed transactions,
transaction by transaction in block order, each with the id of its transaction, the
account, name, authorization, sequence number and receiver of the staged action, the
timestamp and number of the block and the decoded data (nothing is handed over when no
listed transaction has a staged entry). -/
theorem on_accepted_block_message (chain : controller) (my : watcher_plugin_impl)
    (now now_send : Int) (block : block_state)
    (hage : age_check my.age_limit now block.block.timestamp = true)
    (hnd : (listed_ids block).Nodup)
    (hdec : ∀ e ∈ my.action_queue, e.1 ∈ listed_ids block →
      (deserialize_action_data chain e.2.toaction).isSome = true) :
    (on_accepted_block chain my now now_send block).raised = false ∧
    (staged_of_block my.action_queue block = [] →
      (on_accepted_block chain my now now_send block).my.httpc = my.httpc) ∧
    (staged_of_block my.action_queue block ≠ [] →
      ∃ task : delivery_task,
        (on_accepted_block chain my now now_send block).my.httpc = my.httpc ++ [task] ∧
        task.dest = my.receiver_url ∧
        List.Forall₂ (is_notif_of chain block) task.payload.actions
          (staged_of_block my.action_queue block)) := by
  obtain ⟨l, hl, hrel⟩ :=
    on_accepted_block_loop_ok chain block block.block.transactions my ⟨[]⟩ hnd hdec
  have hf := on_accepted_block_loop_fields chain block block.block.transactions my ⟨[]⟩
  have hlen := hrel.length_eq
  generalize hloop : on_accepted_block_loop chain block block.block.transactions my ⟨[]⟩ = r
    at hl hf
  obtain ⟨my1, om⟩ := r
  simp only [List.nil_append] at hl hf
  subst hl
  have hhttp : my1.httpc = my.httpc := by rw [hf]
  have hurl : my1.receiver_url = my.receiver_url := by rw [hf]
  simp only [on_accepted_block, hage, if_true, hloop, staged_of_block]
  cases l with
  | nil =>
    have hst : block.block.transactions.flatMap
        (fun trx => my.action_queue.equal_range (trx_id trx)) = [] :=
      List.length_eq_zero.1 (by simpa using hlen.symm)
    simp [hst, hhttp]
  | cons n l =>
    have hst : block.block.transactions.flatMap
        (fun trx => my.action_queue.equal_range (trx_id trx)) ≠ [] := by
      intro h
      rw [h] at hlen
      simp at hlen
    refine ⟨by simp, fun h => absurd h hst, fun _ => ?_⟩
    refine ⟨⟨my1.receiver_url, ⟨n :: l⟩, wrap64 (now_send + http_timeout)⟩, ?_, hurl, hrel⟩
    simp [send_message, hhttp]

/-- C2 on the sample: block 5 lists transaction 77, whose two staged actions decode. -/
theorem on_accepted_block_message_witness :
    age_check sample.my_staged.age_limit sample.now_fresh sample.block_5.block.timestamp = true ∧
    (listed_ids sample.block_5).Nodup ∧
    (on_accepted_block sample.chain_all sample.my_staged sample.now_fresh sample.now_fresh
      sample.block_5).raised = false ∧
    (on_accepted_block sample.chain_all sample.my_staged sample.now_fresh sample.now_fresh
      sample.block_5).my.httpc =
      [⟨"http://receiver",
        ⟨[⟨77, 1, 10, 0, 1, 1000000, 5, [⟨1, 100⟩], "decoded"⟩,
          ⟨77, 1, 11, 1, 1, 1000000, 5, [⟨1, 100⟩], "decoded"⟩]⟩,
        12000000⟩] :=
  ⟨by decide, by decide,
   (on_accepted_block_message sample.chain_all sample.my_staged sample.now_fresh
      sample.now_fresh sample.block_5 (by decide) (by decide) (by decide)).1,
   by decide⟩

/-- C3, evaluated: transaction 77 has two staged actions, block 5 lists it, passes the age
test and both actions decode; after the handler returns, one entry is still staged under
77, because `erase(find(tx_id))` removes a single entry. -/
theorem on_accepted_block_erases_one_entry :
    age_check sample.my_staged.age_limit sample.now_fresh sample.block_5.block.timestamp = true ∧
    sample.my_staged.action_queue.count 77 = 2 ∧
    (on_accepted_block sample.chain_all sample.my_staged sample.now_fresh sample.now_fresh
      sample.block_5).raised = false ∧
    (on_accepted_block sample.chain_all sample.my_staged sample.now_fresh sample.now_fresh
      sample.block_5).my.action_queue.count 77 = 1 := by
  decide

/-- C7, refuted as stated: of the two staged actions of transaction 77 only `A` decodes;
the handler raises and hands nothing to the delivery client. -/
theorem on_accepted_block_decode_failure_aborts :
    age_check sample.my_staged.age_limit sample.now_fresh sample.block_5.block.timestamp = true ∧
    sample.my_staged.action_queue.count 77 = 2 ∧
    (deserialize_action_data sample.chain_only_10 sample.act_A).isSome = true ∧
    deserialize_action_data sample.chain_only_10 sample.act_B = none ∧
    (on_accepted_block sample.chain_only_10 sample.my_staged sample.now_fresh sample.now_fresh
      sample.block_5).raised = true ∧
    (on_accepted_block sample.chain_only_10 sample.my_staged sample.now_fresh sample.now_fresh
      sample.block_5).my.httpc = [] := by
  decide

/-- C7, as the code has it: when a block passes the age test and a staged action of one of
its listed transactions fails to decode, the handler raises, nothing is handed to the
delivery client, and every entry of that transaction is still staged. -/
theorem on_accepted_block_raises_on_decode_failure (chain : controller)
    (my : watcher_plugin_impl) (now now_send : Int) (block : block_state)
    (e : transaction_id_type × sequenced_action)
    (hage : age_check my.age_limit now block.block.timestamp = true)
    (he : e ∈ my.action_queue) (hlisted : e.1 ∈ listed_ids block)
    (hfail : deserialize_action_data chain e.2.toaction = none) :
    (on_accepted_block chain my now now_send block).raised = true ∧
    (on_accepted_block chain my now now_send block).my.httpc = my.httpc ∧
    (on_accepted_block chain my now now_send block).my.action_queue.equal_range e.1 =
      my.action_queue.equal_range e.1 := by
  obtain ⟨h1, h2⟩ := on_accepted_block_loop_raises chain block block.block.transactions my
    ⟨[]⟩ e he hlisted hfail
  have hf := on_accepted_block_loop_fields chain block block.block.transactions my ⟨[]⟩
  generalize hloop : on_accepted_block_loop chain block block.block.transactions my ⟨[]⟩ = r
    at h1 h2 hf
  obtain ⟨my1, om⟩ := r
  simp only at h1 h2 hf
  subst h1
  simp only [on_accepted_block, hage, if_true, hloop]
  exact ⟨trivial, by rw [hf], h2⟩

/-- C7, as the code has it, on the sample: `B` does not decode, the handler raises. -/
theorem on_accepted_block_raises_on_decode_failure_witness :
    age_check sample.my_staged.age_limit sample.now_fresh sample.block_5.block.timestamp = true ∧
    (on_accepted_block sample.chain_only_10 sample.my_staged sample.now_fresh sample.now_fresh
      sample.block_5).raised = true :=
  ⟨by decide,
   (on_accepted_block_raises_on_decode_failure sample.chain_only_10 sample.my_staged
      sample.now_fresh sample.now_fresh sample.block_5
      (77, sequenced_action.ctor sample.act_B 1 1)
      (by decide) (by decide) (by decide) (by decide)).1⟩

/-- C8, refuted as stated: block 5 is 99 s old under a limit of 60 s and lists transaction
77; after the handler returns both entries of 77 are still staged. -/
theorem on_accepted_block_old_keeps_entries :
    0 ≤ sample.my_staged.age_limit ∧
    sample.my_staged.age_limit * 1000000 < sample.now_late - sample.block_5.block.timestamp ∧
    77 ∈ listed_ids sample.block_5 ∧
    (on_accepted_block sample.chain_all sample.my_staged sample.now_late sample.now_late
      sample.block_5).my.action_queue.count 77 = 2 := by
  decide

/-- C8, as the code has it: for a non-negative age limit and a block older than it, the
handler builds and sends nothing and leaves the plugin, the pending index included,
exactly as it was. -/
theorem on_accepted_block_old_unchanged (chain : controller) (my : watcher_plugin_impl)
    (now now_send : Int) (block : block_state) (hlim : 0 ≤ my.age_limit)
    (hold : my.age_limit * 1000000 < now - block.block.timestamp)
    (hrep : now - block.block.timestamp < 2 ^ 63) :
    on_accepted_block chain my now now_send block = ⟨my, false⟩ :=
  on_accepted_block_of_older chain my now now_send block hlim hold hrep

/-- C8, as the code has it, on the sample: the 99 s old block 5 changes nothing. -/
theorem on_accepted_block_old_unchanged_witness :
    0 ≤ sample.my_staged.age_limit ∧
    sample.my_staged.age_limit * 1000000 < sample.now_late - sample.block_5.block.timestamp ∧
    on_accepted_block sample.chain_all sample.my_staged sample.now_late sample.now_late
      sample.block_5 = ⟨sample.my_staged, false⟩ :=
  ⟨by decide, by decide,
   on_accepted_block_old_unchanged sample.chain_all sample.my_staged sample.now_late
     sample.now_late sample.block_5 (by decide) (by decide) (by decide)⟩

/-- C9: a call of the handler hands at most one message to the delivery client, and one
only when the block passes the age test and the message holds a notification; nothing is
sent for a block older than a non-negative limit, nor for a block none of whose listed
transactions has a staged entry. -/
theorem on_accepted_block_sends_at_most_one (chain : controller) (my : watcher_plugin_impl)
    (now now_send : Int) (block : block_state) :
    ((on_accepted_block chain my now now_send block).my.httpc = my.httpc ∨
      ∃ task : delivery_task,
        (on_accepted_block chain my now now_send block).my.httpc = my.httpc ++ [task] ∧
        task.payload.actions ≠ [] ∧
        age_check my.age_limit now block.block.timestamp = true) ∧
    (0 ≤ my.age_limit → my.age_limit * 1000000 < now - block.block.timestamp →
      now - block.block.timestamp < 2 ^ 63 →
      (on_accepted_block chain my now now_send block).my.httpc = my.httpc) ∧
    ((∀ trx ∈ block.block.transactions, my.action_queue.count (trx_id trx) = 0) →
      (on_accepted_block chain my now now_send block).my.httpc = my.httpc) := by
  refine ⟨?_, ?_, ?_⟩
  · have hf := on_accepted_block_loop_fields chain block block.block.transactions my ⟨[]⟩
    generalize hloop : on_accepted_block_loop chain block block.block.transactions my ⟨[]⟩ = r
      at hf
    obtain ⟨my1, om⟩ := r
    simp only at hf
    have hhttp : my1.httpc = my.httpc := by rw [hf]
    by_cases hage : age_check my.age_limit now block.block.timestamp = true
    · simp only [on_accepted_block, hage, if_true, hloop]
      cases om with
      | none => exact Or.inl hhttp
      | some msg =>
        by_cases hm : msg.actions.length > 0
        · refine Or.inr ⟨⟨my1.receiver_url, msg, wrap64 (now_send + http_timeout)⟩, ?_, ?_, trivial⟩
          · simp [hm, send_message, hhttp]
          · exact List.ne_nil_of_length_pos hm
        · simp only [hm, if_false]
          exact Or.inl hhttp
    · simp [on_accepted_block, hage]
  · intro hlim hold hrep
    rw [on_accepted_block_of_older chain my now now_send block hlim hold hrep]
  · intro hnone
    simp only [on_accepted_block,
      on_accepted_block_loop_none_staged chain block block.block.transactions my ⟨[]⟩ hnone]
    split <;> simp

/-- C9 on the sample: the 99 s old block 5 sends nothing, and block 6, none of whose
transactions is staged, sends nothing. -/
theorem on_accepted_block_sends_at_most_one_witness :
    (on_accepted_block sample.chain_all sample.my_staged sample.now_late sample.now_late
      sample.block_5).my.httpc = sample.my_staged.httpc ∧
    (on_accepted_block sample.chain_all sample.my_staged sample.now_fresh sample.now_fresh
      sample.block_6).my.httpc = sample.my_staged.httpc :=
  ⟨(on_accepted_block_sends_at_most_one sample.chain_all sample.my_staged sample.now_late
      sample.now_late sample.block_5).2.1 (by decide) (by decide) (by decide),
   (on_accepted_block_sends_at_most_one sample.chain_all sample.my_staged sample.now_fresh
      sample.now_fresh sample.block_6).2.2 (by decide)⟩

/-- C10: whatever the age of the block and whether or not the call raises, the handler
leaves the entries of every transaction id that the block does not list exactly as they
were; hence they stay staged across any sequence of blocks none of which lists the id. -/
theorem on_accepted_block_frame (chain : controller) (my : watcher_plugin_impl)
    (k : transaction_id_type) :
    (∀ (now now_send : Int) (block : block_state), k ∉ listed_ids block →
      (on_accepted_block chain my now now_send block).my.action_queue.equal_range k =
        my.action_queue.equal_range k) ∧
    (∀ calls : List accepted_block_call, (∀ c ∈ calls, k ∉ listed_ids c.block_state) →
      (on_accepted_blocks chain calls my).action_queue.equal_range k =
        my.action_queue.equal_range k) := by
  have one : ∀ (m : watcher_plugin_impl) (now now_send : Int) (block : block_state),
      k ∉ listed_ids block →
      (on_accepted_block chain m now now_send block).my.action_queue.equal_range k =
        m.action_queue.equal_range k := by
    intro m now now_send block hk
    have hfr := on_accepted_block_loop_frame chain block block.block.transactions m ⟨[]⟩ k hk
    generalize hloop : on_accepted_block_loop chain block block.block.transactions m ⟨[]⟩ = r
      at hfr
    obtain ⟨my1, om⟩ := r
    simp only at hfr
    simp only [on_accepted_block, hloop]
    split
    · cases om with
      | none => exact hfr
      | some msg =>
        simp only
        split
        · simpa [send_message] using hfr
        · exact hfr
    · rfl
  refine ⟨one my, ?_⟩
  intro calls
  induction calls generalizing my with
  | nil => intro _; rfl
  | cons c rest ih =>
    intro h
    simp only [on_accepted_blocks]
    rw [ih _ (fun c2 hc2 => h c2 (List.mem_cons_of_mem _ hc2))]
    exact one my c.now c.now_send c.block_state (h c (List.mem_cons_self _ _))

/-- C10 on the sample: block 6 lists transaction 88 only, and the entries staged under
77 are the same after the call. -/
theorem on_accepted_block_frame_witness :
    77 ∉ listed_ids sample.block_6 ∧
    (on_accepted_block sample.chain_all sample.my_staged sample.now_fresh sample.now_fresh
      sample.block_6).my.action_queue.equal_range 77 =
      sample.my_staged.action_queue.equal_range 77 :=
  ⟨by decide,
   (on_accepted_block_frame sample.chain_all sample.my_staged 77).1 sample.now_fresh
     sample.now_fresh sample.block_6 (by decide)⟩

/-- A limit below `-1` sends every block that is not stamped in the future down the skip
branch of the age test. -/
theorem age_check_of_limit_below_minus_one (age_limit now btime : Int)
    (hlim : age_limit < -1) (hfit : -2 ^ 63 ≤ age_limit * 1000000)
    (hage : 0 ≤ now - btime) (hrep : now - btime < 2 ^ 63) :
    age_check age_limit now btime = false := by
  have h1 : wrap64 (now - btime) = now - btime := wrap64_of_range _ (by omega) hrep
  have h2 : fc.seconds age_limit = age_limit * 1000000 := by
    unfold fc.seconds
    exact wrap64_of_range _ hfit (by omega)
  have h3 : age_limit ≠ -1 := by omega
  simp only [age_check, h1, h2, Bool.or_eq_false_iff, decide_eq_false_iff_not]
  exact ⟨h3, by omega⟩

/-- C11, evaluated: with `watch-age-limit = -2` the one second old block 5, which lists the
staged transaction 77, fails the age test; the handler skips it, sends nothing and leaves
the state as it was, because only the value `-1` switches the test off. -/
theorem on_accepted_block_limit_minus_2_skips :
    sample.my_staged_limit_minus_2.age_limit = -2 ∧
    age_check sample.my_staged_limit_minus_2.age_limit sample.now_fresh
      sample.block_5.block.timestamp = false ∧
    on_accepted_block sample.chain_all sample.my_staged_limit_minus_2 sample.now_fresh
      sample.now_fresh sample.block_5 = ⟨sample.my_staged_limit_minus_2, false⟩ ∧
    (on_accepted_block sample.chain_all { sample.my_staged with age_limit := -1 }
      sample.now_fresh sample.now_fresh sample.block_5).my.httpc.length = 1 := by
  decide

end watcher_plugin_impl

/-! ## Invariant of the pending index -/

namespace watcher_plugin_impl

/-- The staging loop appends exactly `staged_entries`. -/
theorem on_applied_tx_loop_eq (id : transaction_id_type) (trs : List action_trace)
    (my : watcher_plugin_impl) (seq : Nat) :
    (on_applied_tx_loop id trs my seq).1 =
      { my with action_queue :=
          my.action_queue ++ staged_entries my.filter_on id trs seq } := by
  induction trs generalizing my seq with
  | nil => simp [on_applied_tx_loop, staged_entries]
  | cons tr rest ih =>
    simp only [on_applied_tx_loop, staged_entries]
    rw [ih]
    by_cases hf : filter my.filter_on tr = true
    · simp [on_action_trace, hf, action_queue_t.insert]
    · simp [on_action_trace, hf]

/-- Every staged entry is under the id of the pass. -/
theorem staged_entries_key (filter_on : List filter_entry) (id : transaction_id_type)
    (trs : List action_trace) (seq : Nat) :
    ∀ e ∈ staged_entries filter_on id trs seq, e.1 = id := by
  induction trs generalizing seq with
  | nil => simp [staged_entries]
  | cons tr rest ih =>
    intro e he
    simp only [staged_entries, List.mem_append] at he
    rcases he with he | he
    · by_cases hf : filter filter_on tr = true
      · simp only [hf, if_true, List.mem_singleton] at he
        rw [he]
      · simp [hf] at he
    · exact ih _ e he

/-- The sequence numbers of one pass that does not wrap are a sublist of the run
`seq, seq + 1, ...` of the positions. -/
theorem staged_entries_seq_nums (filter_on : List filter_entry) (id : transaction_id_type)
    (trs : List action_trace) (seq : Nat) (h : seq + trs.length ≤ 2 ^ 32) :
    List.Sublist ((staged_entries filter_on id trs seq).map (fun e => e.2.seq_num))
      (List.range' seq trs.length) := by
  induction trs generalizing seq with
  | nil => simp [staged_entries]
  | cons tr rest ih =>
    have htail : List.Sublist
        ((staged_entries filter_on id rest (action_seq_succ seq)).map (fun e => e.2.seq_num))
        (List.range' (seq + 1) rest.length) := by
      cases rest with
      | nil => simp [staged_entries]
      | cons tr2 rest2 =>
        have hlt : seq + 1 < 2 ^ 32 := by
          simp only [List.length_cons] at h
          omega
        have hs : action_seq_succ seq = seq + 1 := Nat.mod_eq_of_lt hlt
        rw [hs]
        apply ih
        simp only [List.length_cons] at h ⊢
        omega
    simp only [staged_entries, List.map_append, List.length_cons, List.range'_succ]
    by_cases hf : filter filter_on tr = true
    · simp only [hf, if_true, List.map_cons, List.map_nil, List.singleton_append,
        sequenced_action.ctor]
      exact List.Sublist.cons₂ _ htail
    · simp only [hf, Bool.false_eq_true, if_false, List.map_nil, List.nil_append]
      exact List.Sublist.cons _ htail

/-- A pass over fewer than `2^32` action traces stages pairwise distinct sequence numbers. -/
theorem staged_entries_seq_nodup (filter_on : List filter_entry) (id : transaction_id_type)
    (trs : List action_trace) (h : trs.length < 2 ^ 32) :
    ((staged_entries filter_on id trs 0).map (fun e => e.2.seq_num)).Nodup :=
  (staged_entries_seq_nums filter_on id trs 0 (by omega)).nodup (List.nodup_range' _ _)

/-- On an empty index `on_applied_tx` leaves exactly the entries of its pass. -/
theorem on_applied_tx_of_empty (my0 : watcher_plugin_impl) (h0 : my0.action_queue = [])
    (trace : transaction_trace) :
    (on_applied_tx my0 trace).action_queue =
      staged_entries my0.filter_on trace.id trace.action_traces 0 := by
  simp [on_applied_tx, h0, action_queue_t.count, on_applied_tx_loop_eq]

/-- The block handler only removes entries, and leaves the filter set alone. -/
theorem on_accepted_block_sublist (chain : controller) (my : watcher_plugin_impl)
    (now now_send : Int) (block : block_state) :
    List.Sublist (on_accepted_block chain my now now_send block).my.action_queue
      my.action_queue ∧
    (on_accepted_block chain my now now_send block).my.filter_on = my.filter_on := by
  have hloop : ∀ (txs : List transaction_receipt) (m : watcher_plugin_impl) (msg : message),
      List.Sublist (on_accepted_block_loop chain block txs m msg).1.action_queue
        m.action_queue := by
    intro txs
    induction txs with
    | nil => intro m msg; exact List.Sublist.refl _
    | cons trx rest ih =>
      intro m msg
      simp only [on_accepted_block_loop]
      split
      · split
        · exact List.Sublist.refl _
        · refine (ih _ _).trans ?_
          cases hfind : action_queue_t.find m.action_queue (trx_id trx) with
          | none => exact List.Sublist.refl _
          | some i => exact List.eraseIdx_sublist _ _
      · exact ih m msg
  have hf := on_accepted_block_loop_fields chain block block.block.transactions my ⟨[]⟩
  have hs := hloop block.block.transactions my ⟨[]⟩
  generalize hl : on_accepted_block_loop chain block block.block.transactions my ⟨[]⟩ = r
    at hf hs
  obtain ⟨my1, om⟩ := r
  simp only at hf hs
  have hfil : my1.filter_on = my.filter_on := by rw [hf]
  simp only [on_accepted_block, hl]
  split
  · cases om with
    | none => exact ⟨hs, hfil⟩
    | some msg =>
      simp only
      split
      · exact ⟨by simpa [send_message] using hs, by simpa [send_message] using hfil⟩
      · exact ⟨hs, hfil⟩
  · exact ⟨List.Sublist.refl _, rfl⟩

/-- In a reachable state the filter set is the initial one, and the entries under each id
are a sublist of what one pass over one trace of that id stages. -/
theorem reachable_one_pass (my0 my : watcher_plugin_impl) (h0 : my0.action_queue = [])
    (hr : reachable my0 my) :
    my.filter_on = my0.filter_on ∧
    ∀ k : transaction_id_type, ∃ trace : transaction_trace,
      trace.id = k ∧ trace.action_traces.length < 2 ^ 32 ∧
      List.Sublist (my.action_queue.equal_range k)
        (staged_entries my0.filter_on k trace.action_traces 0) := by
  induction hr with
  | start =>
    refine ⟨rfl, fun k => ⟨⟨k, []⟩, rfl, by simp, ?_⟩⟩
    simp [h0, action_queue_t.equal_range, staged_entries]
  | applied_tx m trace _ hlen ih =>
    obtain ⟨hfil, hinv⟩ := ih
    by_cases hc : m.action_queue.count trace.id = 0
    · have hq : on_applied_tx m trace =
          { m with action_queue :=
              m.action_queue ++ staged_entries m.filter_on trace.id trace.action_traces 0 } := by
        simp [on_applied_tx, hc, on_applied_tx_loop_eq]
      rw [hq]
      refine ⟨hfil, fun k => ?_⟩
      have hkey := staged_entries_key m.filter_on trace.id trace.action_traces 0
      by_cases hk : k = trace.id
      · refine ⟨trace, hk.symm, hlen, ?_⟩
        have h1 : action_queue_t.equal_range m.action_queue k = [] :=
          equal_range_of_count_eq_zero _ _ (hk ▸ hc)
        simp only [action_queue_t.equal_range] at h1 ⊢
        rw [List.filter_append, h1, List.nil_append, hfil, hk]
        exact List.filter_sublist _
      · obtain ⟨t, ht1, ht2, ht3⟩ := hinv k
        refine ⟨t, ht1, ht2, ?_⟩
        have h2 : List.filter (fun e => decide (e.1 = k))
            (staged_entries m.filter_on trace.id trace.action_traces 0) = [] := by
          rw [List.filter_eq_nil_iff]
          intro e he
          have := hkey e he
          simp only [decide_eq_true_eq]
          intro hek
          exact hk (hek.symm.trans this)
        simp only [action_queue_t.equal_range] at ht3 ⊢
        rw [List.filter_append, h2, List.append_nil]
        exact ht3
    · have hq : on_applied_tx m trace = m := by simp [on_applied_tx, hc]
      rw [hq]
      exact ⟨hfil, hinv⟩
  | accepted_block chain m now now_send block _ ih =>
    obtain ⟨hfil, hinv⟩ := ih
    obtain ⟨hsub, hf⟩ := on_accepted_block_sublist chain m now now_send block
    refine ⟨hf.trans hfil, fun k => ?_⟩
    obtain ⟨t, ht1, ht2, ht3⟩ := hinv k
    exact ⟨t, ht1, ht2, (List.Sublist.filter _ hsub).trans ht3⟩

/-- C14: in every state reachable from a plugin with an empty pending index by calls of
`on_applied_tx` (traces with fewer than `2^32` action traces) and of `on_accepted_block`
(raising calls included), the entries under one transaction id have pairwise distinct
sequence numbers and are all among the entries that a single pass of `on_applied_tx` over
one trace of that id stages, so the transaction id and the sequence number together
determine the staged entry. -/
theorem reachable_seq_num_unique (my0 my : watcher_plugin_impl)
    (h0 : my0.action_queue = []) (hr : reachable my0 my) :
    (∀ k : transaction_id_type,
      ((my.action_queue.equal_range k).map (fun e => e.2.seq_num)).Nodup) ∧
    (∀ k : transaction_id_type, ∃ trace : transaction_trace, trace.id = k ∧
      List.Sublist (my.action_queue.equal_range k) (on_applied_tx my0 trace).action_queue) ∧
    (∀ e1 ∈ my.action_queue, ∀ e2 ∈ my.action_queue,
      e1.1 = e2.1 → e1.2.seq_num = e2.2.seq_num → e1 = e2) := by
  obtain ⟨_, hinv⟩ := reachable_one_pass my0 my h0 hr
  have hnodup : ∀ k : transaction_id_type,
      ((my.action_queue.equal_range k).map (fun e => e.2.seq_num)).Nodup := by
    intro k
    obtain ⟨t, _, ht2, ht3⟩ := hinv k
    exact (ht3.map _).nodup (staged_entries_seq_nodup my0.filter_on k t.action_traces ht2)
  refine ⟨hnodup, ?_, ?_⟩
  · intro k
    obtain ⟨t, ht1, _, ht3⟩ := hinv k
    refine ⟨t, ht1, ?_⟩
    rw [on_applied_tx_of_empty my0 h0 t, ht1]
    exact ht3
  · intro e1 h1 e2 h2 hk hs
    have m1 : e1 ∈ my.action_queue.equal_range e1.1 := (mem_equal_range _ _ _).2 ⟨h1, rfl⟩
    have m2 : e2 ∈ my.action_queue.equal_range e1.1 := (mem_equal_range _ _ _).2 ⟨h2, hk.symm⟩
    exact List.inj_on_of_nodup_map (hnodup e1.1) m1 m2 hs

/-- C14 on the sample: after transaction 77 is staged and block 5 accepted, the entries
left under 77 have distinct sequence numbers. -/
theorem reachable_seq_num_unique_witness :
    sample.my_watching.action_queue = [] ∧
    (((on_accepted_block sample.chain_all (on_applied_tx sample.my_watching sample.trace_77)
        sample.now_fresh sample.now_fresh sample.block_5).my.action_queue.equal_range 77).map
      (fun e => e.2.seq_num)).Nodup :=
  ⟨rfl,
   (reachable_seq_num_unique sample.my_watching _ rfl
      (reachable.accepted_block sample.chain_all _ sample.now_fresh sample.now_fresh
        sample.block_5
        (reachable.applied_tx _ sample.trace_77 reachable.start (by decide)))).1 77⟩

end watcher_plugin_impl

/-! ## Configuration: the `watch` values -/

namespace watcher_plugin

open watcher_plugin_impl

/-- A string without a colon splits into itself alone. -/
theorem split_colon_of_no_colon (l : List Char) (h : ':' ∉ l) : split_colon l = [l] := by
  induction l with
  | nil => rfl
  | cons c cs ih =>
    have hc : c ≠ ':' := fun hc => h (by simp [hc])
    have hcs : ':' ∉ cs := fun hcs => h (List.mem_cons_of_mem _ hcs)
    simp [split_colon, hc, ih hcs]

/-- A string without a colon, followed by one colon, splits into itself and the empty
field. -/
theorem split_colon_append_colon (l : List Char) (h : ':' ∉ l) :
    split_colon (l ++ [':']) = [l, []] := by
  induction l with
  | nil => simp [split_colon]
  | cons c cs ih =>
    have hc : c ≠ ':' := fun hc => h (by simp [hc])
    have hcs : ':' ∉ cs := fun hcs => h (List.mem_cons_of_mem _ hcs)
    simp [split_colon, hc, ih hcs]

/-- The inserted entry is in the set afterwards. -/
theorem mem_set_insert (s : List filter_entry) (e : filter_entry) : e ∈ set_insert s e := by
  induction s with
  | nil => simp [set_insert]
  | cons x xs ih =>
    simp only [set_insert]
    by_cases h1 : filter_entry.lt e x = true
    · simp [h1]
    · by_cases h2 : filter_entry.lt x e = true
      · simp [h1, h2, ih]
      · have hx : x = e := (equiv_iff_eq x e).1 (by simp [h1, h2])
        rw [if_neg h1, if_neg h2, hx]
        exact List.mem_cons_self _ _

/-- A set holding the wildcard entry of a receiver passes every action of that receiver. -/
theorem filter_of_wildcard (filter_on : List filter_entry) (act : action_trace)
    (h : (⟨act.receiver, 0⟩ : filter_entry) ∈ filter_on) : filter filter_on act = true := by
  have h2 := (set_find_isSome filter_on ⟨act.receiver, 0⟩).2 h
  unfold filter
  by_cases h1 : (set_find filter_on ⟨act.receiver, act.act.name⟩).isSome = true
  · simp [h1]
  · simp [h1, h2]

/-- A `watch` value without a colon anywhere in the list makes the loop throw. -/
theorem watch_loop_of_no_colon (string_to_name : String → Option name)
    (entries : List String) (filter_on : List filter_entry) (r : String)
    (hr : r ∈ entries) (hcolon : ':' ∉ r.data) :
    ∃ e, watch_loop string_to_name entries filter_on = Except.error e := by
  induction entries generalizing filter_on with
  | nil => cases hr
  | cons s rest ih =>
    by_cases hs : s = r
    · subst hs
      refine ⟨fc_exception.invalid_arg_exception, ?_⟩
      simp [watch_loop, split_colon_of_no_colon _ hcolon]
    · have hrest : r ∈ rest := by
        rcases List.mem_cons.1 hr with h | h
        · exact absurd h.symm hs
        · exact h
      simp only [watch_loop]
      split
      · split
        · split
          · exact ih _ hrest
          · exact ⟨_, rfl⟩
        · exact ⟨_, rfl⟩
      · exact ⟨_, rfl⟩

/-- C13, refuted as stated: `alice` is a valid receiver name, and the options whose only
`watch` value is `alice` are refused with `fc::invalid_arg_exception`. -/
theorem plugin_initialize_refuses_alice :
    (∃ v, sample.string_to_name "alice" = some v ∧ v ≠ 0) ∧
    plugin_initialize sample.string_to_name watcher_plugin_impl.ctor sample.options_alice =
      Except.error fc_exception.invalid_arg_exception :=
  ⟨⟨3773036822876127232, by decide, by decide⟩, by decide⟩

/-- C13, as the code has it: for a receiver name `r` without a colon that the constructor of
`name` accepts with a non-zero value, the `watch` value `r` alone is refused, alone with
`fc::invalid_arg_exception` and anywhere in a list of values with some exception; the value
`r:` (empty action part, the empty string being the name 0) is accepted and puts the
wildcard entry of `r` into the filter set, after which `filter` passes every action whose
receiver is `r`. -/
theorem plugin_initialize_needs_colon (string_to_name : String → Option name)
    (my : watcher_plugin_impl) (url : String) (limit : Option Int) (r : String) (v : name)
    (hcolon : ':' ∉ r.data) (hname : string_to_name r = some v) (hv : v ≠ 0)
    (hempty : string_to_name "" = some 0) :
    plugin_initialize string_to_name my ⟨some url, some [r], limit⟩ =
      Except.error fc_exception.invalid_arg_exception ∧
    (∀ entries : List String, r ∈ entries →
      ∃ e, plugin_initialize string_to_name my ⟨some url, some entries, limit⟩ =
        Except.error e) ∧
    (∃ my1, plugin_initialize string_to_name my ⟨some url, some [r ++ ":"], limit⟩ =
        Except.ok my1 ∧
      my1.filter_on = set_insert my.filter_on ⟨v, 0⟩ ∧
      ∀ act : action_trace, act.receiver = v → filter my1.filter_on act = true) := by
  refine ⟨?_, ?_, ?_⟩
  · simp [ plugin_initialize, watch_loop, split_colon_of_no_colon _ hcolon]
  · intro entries hr
    obtain ⟨e, he⟩ := watch_loop_of_no_colon string_to_name entries my.filter_on r hr hcolon
    exact ⟨e, by simp [ plugin_initialize, he]⟩
  · have hsplit : (split_colon (r ++ ":").data).map String.mk = [r, ""] := by
      rw [String.data_append]
      exact congrArg (List.map String.mk) (split_colon_append_colon r.data hcolon)
    have hloop : watch_loop string_to_name [r ++ ":"] my.filter_on =
        Except.ok (set_insert my.filter_on ⟨v, 0⟩) := by
      simp only [watch_loop, hsplit, hname, hempty]
      simp [hv]
    have hpass : ∀ act : action_trace, act.receiver = v →
        filter (set_insert my.filter_on ⟨v, 0⟩) act = true := by
      intro act hact
      apply filter_of_wildcard
      rw [hact]
      exact mem_set_insert _ _
    cases limit with
    | none =>
      exact ⟨{ my with receiver_url := url,
                       filter_on := set_insert my.filter_on ⟨v, 0⟩ },
        by simp only [ plugin_initialize, hloop], rfl, hpass⟩
    | some l =>
      exact ⟨{ my with receiver_url := url,
                       filter_on := set_insert my.filter_on ⟨v, 0⟩, age_limit := l },
        by simp only [ plugin_initialize, hloop], rfl, hpass⟩

/-- C13, as the code has it, on the sample: `alice` is refused and `alice:` is accepted. -/
theorem plugin_initialize_needs_colon_witness :
    ':' ∉ "alice".data ∧
    sample.string_to_name "alice" = some 3773036822876127232 ∧
    sample.string_to_name "" = some 0 ∧
    plugin_initialize sample.string_to_name watcher_plugin_impl.ctor
      ⟨some "http://receiver", some ["alice"], some 60⟩ =
      Except.error fc_exception.invalid_arg_exception ∧
    plugin_initialize sample.string_to_name watcher_plugin_impl.ctor
      sample.options_alice_colon =
      Except.ok ⟨[⟨3773036822876127232, 0⟩], [], "http://receiver", 60, []⟩ :=
  ⟨by decide, by decide, by decide,
   (plugin_initialize_needs_colon sample.string_to_name watcher_plugin_impl.ctor
      "http://receiver" (some 60) "alice" 3773036822876127232
      (by decide) (by decide) (by decide) (by decide)).1,
   by decide⟩

end watcher_plugin

/-! ## Delivery client: retry -/

namespace http_async_client

/-- A call of `post_sync` on a client whose `retry` is cleared sends once. -/
theorem post_sync_unarmed {T : Type} (sync_client : Nat → send_result)
    (self : http_async_client T) (dest : String) (payload : T) (deadline : Int)
    (h : self.retry = false) :
    post_sync sync_client self dest payload deadline =
      ⟨true, self.calls ++ [⟨dest, payload, deadline⟩]⟩ := by
  rw [post_sync]
  split <;> simp [h]

/-- Whatever happens, `retry` is set when `post_sync` returns. -/
theorem post_sync_retry_armed {T : Type} (sync_client : Nat → send_result)
    (self : http_async_client T) (dest : String) (payload : T) (deadline : Int) :
    (post_sync sync_client self dest payload deadline).retry = true := by
  rw [post_sync]
  split
  · split <;> rfl
  · rfl

/-- When the first send of an armed client throws `fc::assert_exception`, the send is made
exactly twice with the same arguments, however the second one ends. -/
theorem post_sync_two_sends {T : Type} (sync_client : Nat → send_result)
    (self : http_async_client T) (dest : String) (payload : T) (deadline : Int)
    (harmed : self.retry = true)
    (h1 : sync_client self.calls.length = send_result.assert_exception) :
    (post_sync sync_client self dest payload deadline).calls =
      self.calls ++ [⟨dest, payload, deadline⟩, ⟨dest, payload, deadline⟩] := by
  rw [post_sync]
  simp only [h1, harmed, dite_true]
  rw [post_sync_unarmed _ _ _ _ _ rfl]
  simp

/-- After any run of tasks the flag `retry` of an armed client is set. -/
theorem run_retry_armed {T : Type} (sync_client : Nat → send_result)
    (tasks : List (send_call T)) (self : http_async_client T) (harmed : self.retry = true) :
    (run sync_client tasks self).retry = true := by
  induction tasks generalizing self with
  | nil => exact harmed
  | cons task rest ih => exact ih _ (post_sync_retry_armed _ _ _ _ _)

/-- C6: for an armed client, a send that fails once with `fc::assert_exception` and then
succeeds is made exactly twice with the same destination, payload and deadline; a send that
fails twice in a row is made exactly twice, not a third time; and in every case `retry` is
set again when `post_sync` returns, also after any sequence of tasks run by the worker. -/
theorem post_sync_retries_once {T : Type} (sync_client : Nat → send_result)
    (self : http_async_client T) (dest : String) (payload : T) (deadline : Int)
    (harmed : self.retry = true) :
    (sync_client self.calls.length = send_result.assert_exception →
      sync_client (self.calls.length + 1) = send_result.ok →
      (post_sync sync_client self dest payload deadline).calls =
        self.calls ++ [⟨dest, payload, deadline⟩, ⟨dest, payload, deadline⟩]) ∧
    (sync_client self.calls.length = send_result.assert_exception →
      sync_client (self.calls.length + 1) = send_result.assert_exception →
      (post_sync sync_client self dest payload deadline).calls =
        self.calls ++ [⟨dest, payload, deadline⟩, ⟨dest, payload, deadline⟩]) ∧
    (post_sync sync_client self dest payload deadline).retry = true ∧
    (∀ tasks : List (send_call T), (run sync_client tasks self).retry = true) :=
  ⟨fun h1 _ => post_sync_two_sends sync_client self dest payload deadline harmed h1,
   fun h1 _ => post_sync_two_sends sync_client self dest payload deadline harmed h1,
   post_sync_retry_armed sync_client self dest payload deadline,
   fun tasks => run_retry_armed sync_client tasks self harmed⟩

/-- C6 on a fresh client whose first two sends both fail: two sends, flag set again. -/
theorem post_sync_retries_once_witness :
    (init Nat).retry = true ∧
    (post_sync (fun _ => send_result.assert_exception) (init Nat) "url" 7 100).calls =
      [⟨"url", 7, 100⟩, ⟨"url", 7, 100⟩] ∧
    (post_sync (fun _ => send_result.assert_exception) (init Nat) "url" 7 100).retry = true :=
  ⟨rfl,
   (post_sync_retries_once (fun _ => send_result.assert_exception) (init Nat) "url" 7 100
      rfl).2.1 rfl rfl,
   (post_sync_retries_once (fun _ => send_result.assert_exception) (init Nat) "url" 7 100
      rfl).2.2.1⟩

/-- C12, refuted as stated: the first send of a fresh client ends with
`fc::eof_exception`; the send is made once, not twice. -/
theorem post_sync_eof_single_send :
    (init Nat).retry = true ∧
    (post_sync (fun _ => send_result.eof_exception) (init Nat) "url" 7 100).calls =
      [⟨"url", 7, 100⟩] := by
  refine ⟨rfl, ?_⟩
  rw [post_sync]
  rfl

/-- C12, as the code has it: when the first send ends with `fc::eof_exception` the handler
swallows it; there is no retry, the send is made exactly once for the task, and `retry` is
set when `post_sync` returns. -/
theorem post_sync_eof_no_retry {T : Type} (sync_client : Nat → send_result)
    (self : http_async_client T) (dest : String) (payload : T) (deadline : Int)
    (h1 : sync_client self.calls.length = send_result.eof_exception) :
    (post_sync sync_client self dest payload deadline).calls =
      self.calls ++ [⟨dest, payload, deadline⟩] ∧
    (post_sync sync_client self dest payload deadline).retry = true := by
  rw [post_sync]
  simp [h1]

/-- C12, as the code has it, on a fresh client whose send ends with `fc::eof_exception`. -/
theorem post_sync_eof_no_retry_witness :
    (post_sync (fun _ => send_result.eof_exception) (init Nat) "url" 7 100).calls.length = 1 ∧
    (post_sync (fun _ => send_result.eof_exception) (init Nat) "url" 7 100).retry = true := by
  have h := post_sync_eof_no_retry (fun _ => send_result.eof_exception) (init Nat) "url" 7 100
    rfl
  exact ⟨by rw [h.1]; rfl, h.2⟩

end http_async_client

end eosio
